import Mathlib

/-!
Verification of the py-cid CID codec (cid/cid.py, cid/prefix.py, cid/set.py).

Bytes are modelled as lists of natural numbers (each < 256 where relevant);
fallible Python code returns Except. External collaborators (py-multibase,
py-multicodec, py-multihash, base58) are consumed through narrow interfaces;
they are modelled concretely below from the contracts in the specification
together with the published registry tables the packages implement.
-/

namespace CidSpec

/-- Byte strings are lists of naturals. -/
abbrev Bytes := List Nat

/-- Error taxonomy of the library: every ValueError raised by the core carries
one of these distinguishable kinds (messages in the source distinguish them). -/
inductive Err where
  | tooShort
  | invalidCIDLength
  | invalidBase58Multihash
  | invalidMultihashStructure
  | unknownHashCode
  | invalidVersion
  | unknownCodec
  | codecVersionMismatch
  | unknownEncoding
  | unsupportedHashAlgorithm
  | unknownHashType
  | malformedVarint
  | trailingBytes
  | unexpectedEof
  | invalidArgument
  deriving DecidableEq, Repr

deriving instance DecidableEq for Except

/-! ### Varint codec (cid/prefix.py lines 13-64) -/

/-- Recursion core of prefix.py _encode_varint.  The first argument is fuel
bounding the iteration count (the loop runs at most value iterations), so the
recursion is structural and the definition evaluates inside the kernel. -/
def encodeVarintAux : Nat → Nat → Bytes
  | 0, value => [value]
  | fuel + 1, value =>
    if value > 0x7F then ((value % 128) + 128) :: encodeVarintAux fuel (value / 128)
    else [value]

/-- Translation of prefix.py _encode_varint for non-negative values:
7 low bits per byte, high bit set on all bytes except the last. -/
def encodeVarint (value : Nat) : Bytes := encodeVarintAux value value

theorem encodeVarintAux_congr (fuel₁ : Nat) :
    ∀ fuel₂ value, value ≤ fuel₁ → value ≤ fuel₂ →
      encodeVarintAux fuel₁ value = encodeVarintAux fuel₂ value := by
  induction fuel₁ with
  | zero =>
    intro fuel₂ value h1 _
    have hv0 : value = 0 := by omega
    subst hv0
    cases fuel₂ <;> simp [encodeVarintAux]
  | succ n ih =>
    intro fuel₂ value h1 h2
    match fuel₂ with
    | 0 =>
      have hv0 : value = 0 := by omega
      subst hv0
      simp [encodeVarintAux]
    | m + 1 =>
      simp only [encodeVarintAux]
      split
      · rename_i hv
        have hd : value / 128 ≤ n := by
          have := Nat.div_lt_self (by omega : 0 < value) (by omega : 1 < 128)
          omega
        have hd2 : value / 128 ≤ m := by
          have := Nat.div_lt_self (by omega : 0 < value) (by omega : 1 < 128)
          omega
        rw [ih m (value / 128) hd hd2]
      · rfl

/-- Unfolding equation for encodeVarint matching the source loop. -/
theorem encodeVarint_unfold (value : Nat) :
    encodeVarint value =
      if value > 0x7F then ((value % 128) + 128) :: encodeVarint (value / 128)
      else [value] := by
  unfold encodeVarint
  match value with
  | 0 => simp [encodeVarintAux]
  | v + 1 =>
    simp only [encodeVarintAux]
    split
    · rename_i hv
      have hd : (v + 1) / 128 ≤ v := by
        have := Nat.div_lt_self (by omega : 0 < v + 1) (by omega : 1 < 128)
        omega
      rw [encodeVarintAux_congr v ((v + 1) / 128) ((v + 1) / 128) hd le_rfl]
    · rfl

/-- Translation of the loop body of prefix.py _decode_varint: accumulate 7-bit
groups little-endian; stop at a byte with the high bit clear; raise only when a
continuation byte pushes the shift to 64 or beyond.  Note that when the list is
exhausted while the last byte still had its high bit set, the Python for-loop
simply falls through and the accumulated value is returned. -/
def decodeVarintLoop : Bytes → Nat → Nat → Nat → Except Err (Nat × Nat)
  | [], value, _, consumed => .ok (value, consumed)
  | b :: rest, value, shift, consumed =>
    let value := value + (b % 128) * 2 ^ shift
    let consumed := consumed + 1
    if b < 128 then .ok (value, consumed)
    else if shift + 7 ≥ 64 then .error .malformedVarint
    else decodeVarintLoop rest value (shift + 7) consumed

/-- Translation of prefix.py _decode_varint: fails up front when the offset is
at or past the end of the data, then runs the accumulation loop. -/
def decodeVarint (data : Bytes) (offset : Nat) : Except Err (Nat × Nat) :=
  if offset ≥ data.length then .error .malformedVarint
  else decodeVarintLoop (data.drop offset) 0 0 0

theorem encodeVarint_ne_nil (n : Nat) : encodeVarint n ≠ [] := by
  rw [encodeVarint_unfold]
  split <;> simp

theorem mem_encodeVarint_lt (n : Nat) : ∀ b ∈ encodeVarint n, b < 256 := by
  induction n using Nat.strong_induction_on with
  | _ n ih =>
    rw [encodeVarint_unfold]
    split
    · rename_i hv
      intro b hb
      rcases List.mem_cons.mp hb with h | h
      · omega
      · exact ih (n / 128) (Nat.div_lt_self (by omega) (by omega)) b h
    · rename_i hv
      intro b hb
      simp only [List.mem_singleton] at hb
      omega

theorem encodeVarint_length_le (k : Nat) :
    ∀ n, n < 128 ^ (k + 1) → (encodeVarint n).length ≤ k + 1 := by
  induction k with
  | zero =>
    intro n hn
    rw [encodeVarint_unfold]
    have h : ¬ n > 0x7F := by norm_num at hn ⊢; omega
    simp [h]
  | succ m ih =>
    intro n hn
    rw [encodeVarint_unfold]
    split
    · rename_i hv
      have hdiv : n / 128 < 128 ^ (m + 1) := by
        rw [Nat.div_lt_iff_lt_mul (by omega)]
        calc n < 128 ^ (m + 2) := hn
        _ = 128 ^ (m + 1) * 128 := by ring
      simpa using ih (n / 128) hdiv
    · simp

/-- The little-endian accumulation of the low 7-bit groups of a byte list. -/
def accumLE : Bytes → Nat
  | [] => 0
  | b :: rest => b % 128 + 128 * accumLE rest

theorem accumLE_encodeVarint (n : Nat) : accumLE (encodeVarint n) = n := by
  induction n using Nat.strong_induction_on with
  | _ n ih =>
    rw [encodeVarint_unfold]
    split
    · rename_i hv
      simp only [accumLE]
      rw [ih (n / 128) (Nat.div_lt_self (by omega) (by omega))]
      omega
    · rename_i hv
      simp only [accumLE]
      omega

/-- The decode loop consumes a well-formed varint prefix exactly, provided the
64-bit shift guard is never tripped along it. -/
theorem decodeVarintLoop_enc (n : Nat) :
    ∀ post value shift consumed,
      shift + 7 * ((encodeVarint n).length - 1) + 7 < 64 + 7 →
      decodeVarintLoop (encodeVarint n ++ post) value shift consumed =
        .ok (value + n * 2 ^ shift, consumed + (encodeVarint n).length) := by
  induction n using Nat.strong_induction_on with
  | _ n ih =>
    intro post value shift consumed hshift
    rw [encodeVarint_unfold] at hshift ⊢
    by_cases hv : n > 0x7F
    · simp only [hv, if_true] at hshift ⊢
      have hne := encodeVarint_ne_nil (n / 128)
      have hlen : 1 ≤ (encodeVarint (n / 128)).length := by
        cases h : encodeVarint (n / 128) with
        | nil => exact absurd h hne
        | cons a l => simp
      simp only [List.cons_append, decodeVarintLoop]
      have hb : ¬ (n % 128 + 128 < 128) := by omega
      simp only [hb, if_false]
      have hg : ¬ (shift + 7 ≥ 64) := by
        simp only [List.length_cons] at hshift
        omega
      simp only [hg, if_false, List.append_eq]
      rw [ih (n / 128) (Nat.div_lt_self (by omega) (by omega)) post _ (shift + 7) (consumed + 1)
        (by simp only [List.length_cons] at hshift; omega)]
      have h128 : (n % 128 + 128) % 128 = n % 128 := by omega
      have expand : n * 2 ^ shift = n % 128 * 2 ^ shift + n / 128 * 2 ^ (shift + 7) := by
        conv_lhs => rw [← Nat.mod_add_div n 128]
        rw [pow_add]
        ring
      rw [h128, expand]
      congr 1
      · congr 1
        · ring
        · simp only [List.length_cons]
          omega
    · simp only [hv, if_false]
      simp only [List.cons_append, decodeVarintLoop]
      have hb : n % 128 + 0 = n := by omega
      have hlt : n < 128 := by omega
      simp only [hlt, if_true]
      have : n % 128 = n := Nat.mod_eq_of_lt hlt
      rw [this]
      simp [Nat.add_comm]

/-- decodeVarint reads a well-formed varint at any offset: values below 2^63
encode into at most nine bytes, which keeps the shift guard silent. -/
theorem decodeVarint_at (pre : Bytes) (n : Nat) (post : Bytes) (hn : n < 2 ^ 63) :
    decodeVarint (pre ++ encodeVarint n ++ post) pre.length =
      .ok (n, (encodeVarint n).length) := by
  have hlen : (encodeVarint n).length ≤ 9 := by
    have : n < 128 ^ 9 := by
      calc n < 2 ^ 63 := hn
      _ = 128 ^ 9 := by norm_num
    exact encodeVarint_length_le 8 n this
  have hne := encodeVarint_ne_nil n
  have hpos : 1 ≤ (encodeVarint n).length := by
    cases h : encodeVarint n with
    | nil => exact absurd h hne
    | cons a l => simp
  unfold decodeVarint
  have hoff : ¬ (pre.length ≥ (pre ++ encodeVarint n ++ post).length) := by
    simp only [List.append_assoc, List.length_append]
    omega
  simp only [hoff, if_false]
  rw [List.append_assoc, List.drop_left]
  rw [decodeVarintLoop_enc n post 0 0 0 (by omega)]
  simp

theorem decodeVarint_encodeVarint (n : Nat) (post : Bytes) (hn : n < 2 ^ 63) :
    decodeVarint (encodeVarint n ++ post) 0 = .ok (n, (encodeVarint n).length) := by
  have := decodeVarint_at [] n post hn
  simpa using this

/-! ### Positional digit machinery

Used by the base58 collaborator model.  The fuel argument makes the recursion
structural so that concrete values evaluate inside the kernel; the bridge lemma
identifies the function with Mathlib's Nat.digits. -/

def digitsAuxLE (b : Nat) : Nat → Nat → List Nat
  | 0, _ => []
  | fuel + 1, n => if n = 0 then [] else n % b :: digitsAuxLE b fuel (n / b)

/-- Little-endian base-b digits of a natural number (empty for 0). -/
def digitsLE (b n : Nat) : List Nat := digitsAuxLE b n n

theorem digitsAuxLE_eq_digits (b : Nat) (hb : 2 ≤ b) :
    ∀ fuel n, n ≤ fuel → digitsAuxLE b fuel n = Nat.digits b n := by
  intro fuel
  induction fuel with
  | zero =>
    intro n hn
    have : n = 0 := by omega
    subst this
    simp [digitsAuxLE]
  | succ m ih =>
    intro n hn
    by_cases h0 : n = 0
    · subst h0; simp [digitsAuxLE]
    · have hdiv : n / b ≤ m := by
        have := Nat.div_lt_self (by omega : 0 < n) (by omega : 1 < b)
        omega
      rw [Nat.digits_def' (by omega : 1 < b) (by omega : 0 < n)]
      simp only [digitsAuxLE, h0, if_false]
      rw [ih (n / b) hdiv]

theorem digitsLE_eq_digits (b n : Nat) (hb : 2 ≤ b) :
    digitsLE b n = Nat.digits b n :=
  digitsAuxLE_eq_digits b hb n n le_rfl

/-! ### External collaborator: base58

Modelled from the spec: base58.b58encode / base58.b58decode over the bitcoin
alphabet.  Leading zero bytes map to leading ones of the text and conversely;
the remaining bytes are treated as a big-endian base-256 number rewritten in
base 58. -/

/-- ASCII codes of the base58btc alphabet, digit value 0 first. -/
def b58Alphabet : Bytes :=
  [49, 50, 51, 52, 53, 54, 55, 56, 57,
   65, 66, 67, 68, 69, 70, 71, 72,
   74, 75, 76, 77, 78,
   80, 81, 82, 83, 84, 85, 86, 87, 88, 89, 90,
   97, 98, 99, 100, 101, 102, 103, 104, 105, 106, 107,
   109, 110, 111, 112, 113, 114, 115, 116, 117, 118, 119, 120, 121, 122]

def countLeadingZeros : Bytes → Nat
  | [] => 0
  | b :: rest => if b = 0 then countLeadingZeros rest + 1 else 0

/-- The big-endian base-256 value of a byte string. -/
def natOfBytesBE (data : Bytes) : Nat := Nat.ofDigits 256 data.reverse

/-- Modelled from the spec: base58.b58encode. -/
def b58encode (data : Bytes) : Bytes :=
  List.replicate (countLeadingZeros data) 49 ++
    ((digitsLE 58 (natOfBytesBE data)).reverse.map (fun d => b58Alphabet.getD d 0))

/-- Digit value of one base58 character, none when the character is not in the
alphabet. -/
def b58CharVal (c : Nat) : Option Nat := b58Alphabet.indexOf? c

/-- Digit values of a text, none when any character is invalid. -/
def b58Vals : Bytes → Option (List Nat)
  | [] => some []
  | c :: rest =>
    match b58CharVal c, b58Vals rest with
    | some v, some vs => some (v :: vs)
    | _, _ => none

/-- Modelled from the spec: base58.b58decode; fails when any character is
outside the alphabet. -/
def b58decode (text : Bytes) : Except Err Bytes :=
  match b58Vals text with
  | none => .error .invalidBase58Multihash
  | some vals =>
    .ok (List.replicate (countLeadingZeros vals) 0 ++
      (digitsLE 256 (Nat.ofDigits 58 vals.reverse)).reverse)

theorem b58CharVal_getD : ∀ d, d < 58 → b58CharVal (b58Alphabet.getD d 0) = some d := by
  decide

theorem b58Alphabet_bounds : ∀ c ∈ b58Alphabet, 49 ≤ c ∧ c ≤ 122 := by decide

theorem b58Alphabet_getD_eq_49 : ∀ d, d < 58 → (b58Alphabet.getD d 0 = 49 ↔ d = 0) := by
  decide

theorem b58Alphabet_getD_mem : ∀ d, d < 58 → b58Alphabet.getD d 0 ∈ b58Alphabet := by
  decide

/-- Decomposition along the leading zeros. -/
theorem clz_decomp (data : Bytes) :
    data = List.replicate (countLeadingZeros data) 0 ++
        data.drop (countLeadingZeros data) ∧
      ∀ b, (data.drop (countLeadingZeros data)).head? = some b → b ≠ 0 := by
  induction data with
  | nil => exact ⟨rfl, by simp⟩
  | cons x rest ih =>
    by_cases hx : x = 0
    · subst hx
      obtain ⟨h1, h2⟩ := ih
      have hcz : countLeadingZeros (0 :: rest) = countLeadingZeros rest + 1 := by
        simp [countLeadingZeros]
      rw [hcz]
      constructor
      · rw [List.replicate_succ, List.cons_append, List.drop_succ_cons]
        exact congrArg (0 :: ·) h1
      · rw [List.drop_succ_cons]
        exact h2
    · have hcz : countLeadingZeros (x :: rest) = 0 := by simp [countLeadingZeros, hx]
      rw [hcz]
      exact ⟨by simp, by simp [hx]⟩

theorem countLeadingZeros_replicate_append (z : Nat) (rest : Bytes)
    (h : ∀ b, rest.head? = some b → b ≠ 0) :
    countLeadingZeros (List.replicate z 0 ++ rest) = z := by
  induction z with
  | zero =>
    simp only [List.replicate, List.nil_append]
    cases rest with
    | nil => rfl
    | cons b t =>
      have hb : b ≠ 0 := h b rfl
      simp [countLeadingZeros, hb]
  | succ m ih =>
    have hsucc : countLeadingZeros (List.replicate (m + 1) 0 ++ rest) =
        countLeadingZeros (List.replicate m 0 ++ rest) + 1 := by
      rw [List.replicate_succ, List.cons_append]
      simp [countLeadingZeros]
    rw [hsucc, ih]

theorem ofDigits_replicate_zero (b z : Nat) :
    Nat.ofDigits b (List.replicate z 0) = 0 := by
  induction z with
  | zero => rfl
  | succ m ih => rw [List.replicate_succ, Nat.ofDigits_cons, ih]; simp

theorem natOfBytesBE_replicate_zero_append (z : Nat) (rest : Bytes) :
    natOfBytesBE (List.replicate z 0 ++ rest) = natOfBytesBE rest := by
  unfold natOfBytesBE
  rw [List.reverse_append, List.reverse_replicate, Nat.ofDigits_append,
    ofDigits_replicate_zero]
  simp

theorem natOfBytesBE_head_lower (x : Nat) (t : Bytes) :
    x * 256 ^ t.length ≤ natOfBytesBE (x :: t) := by
  unfold natOfBytesBE
  rw [List.reverse_cons, Nat.ofDigits_append]
  simp only [Nat.ofDigits_singleton, List.length_reverse]
  rw [Nat.mul_comm (256 ^ t.length) x]
  omega

theorem natOfBytesBE_pos (x : Nat) (t : Bytes) (hx : x ≠ 0) :
    0 < natOfBytesBE (x :: t) := by
  have hlow := natOfBytesBE_head_lower x t
  have hp : 0 < 256 ^ t.length := Nat.pos_pow_of_pos _ (by omega)
  have h1 : 0 < x * 256 ^ t.length := Nat.mul_pos (by omega) hp
  omega

theorem b58Vals_append (a : Bytes) :
    ∀ b va vb, b58Vals a = some va → b58Vals b = some vb →
      b58Vals (a ++ b) = some (va ++ vb) := by
  induction a with
  | nil =>
    intro b va vb ha hb
    simp only [b58Vals] at ha
    cases ha
    simpa using hb
  | cons c rest ih =>
    intro b va vb ha hb
    simp only [b58Vals] at ha
    simp only [List.cons_append, b58Vals, List.append_eq]
    cases hc : b58CharVal c with
    | none => rw [hc] at ha; cases ha
    | some v =>
      rw [hc] at ha
      cases hr : b58Vals rest with
      | none => rw [hr] at ha; cases ha
      | some vs =>
        rw [hr] at ha
        simp only at ha
        cases ha
        rw [ih b vs vb hr hb]
        rfl

theorem b58Vals_replicate_49 (z : Nat) :
    b58Vals (List.replicate z 49) = some (List.replicate z 0) := by
  induction z with
  | zero => rfl
  | succ m ih =>
    rw [List.replicate_succ, List.replicate_succ]
    simp only [b58Vals]
    rw [ih]
    rfl

theorem b58Vals_map_alphabet (L : List Nat) (hL : ∀ d ∈ L, d < 58) :
    b58Vals (L.map (fun d => b58Alphabet.getD d 0)) = some L := by
  induction L with
  | nil => rfl
  | cons d rest ih =>
    simp only [List.map_cons, b58Vals]
    rw [b58CharVal_getD d (hL d (by simp))]
    rw [ih (fun x hx => hL x (by simp [hx]))]

/-- Round trip of the base58 collaborator model on byte strings. -/
theorem b58decode_b58encode (data : Bytes) (hb : ∀ x ∈ data, x < 256) :
    b58decode (b58encode data) = .ok data := by
  obtain ⟨hdecomp, hhead⟩ := clz_decomp data
  have hn0 : natOfBytesBE data = natOfBytesBE (data.drop (countLeadingZeros data)) := by
    conv_lhs => rw [hdecomp]
    exact natOfBytesBE_replicate_zero_append _ _
  obtain ⟨z, hz⟩ : ∃ z, countLeadingZeros data = z := ⟨_, rfl⟩
  obtain ⟨rest, hr⟩ : ∃ r, data.drop (countLeadingZeros data) = r := ⟨_, rfl⟩
  rw [hz] at hr
  rw [hz, hr] at hdecomp hhead
  rw [hz, hr] at hn0
  obtain ⟨n, hndef⟩ : ∃ n, natOfBytesBE data = n := ⟨_, rfl⟩
  rw [hndef] at hn0
  have hdigit_lt : ∀ d ∈ (Nat.digits 58 n).reverse, d < 58 := fun d hd =>
    Nat.digits_lt_base (by omega) (List.mem_reverse.mp hd)
  have hvals : b58Vals (b58encode data) =
      some (List.replicate z 0 ++ (Nat.digits 58 n).reverse) := by
    unfold b58encode
    rw [hz, hndef, digitsLE_eq_digits 58 n (by omega)]
    exact b58Vals_append _ _ _ _ (b58Vals_replicate_49 z)
      (b58Vals_map_alphabet _ hdigit_lt)
  unfold b58decode
  rw [hvals]
  simp only []
  have hclz : countLeadingZeros (List.replicate z 0 ++ (Nat.digits 58 n).reverse) = z := by
    apply countLeadingZeros_replicate_append
    intro b hbhead
    rw [List.head?_reverse] at hbhead
    by_cases hnz : n = 0
    · rw [hnz] at hbhead
      simp [Nat.digits_zero] at hbhead
    · have hne : Nat.digits 58 n ≠ [] := Nat.digits_ne_nil_iff_ne_zero.mpr hnz
      rw [List.getLast?_eq_getLast _ hne] at hbhead
      cases hbhead
      exact Nat.getLast_digit_ne_zero 58 hnz
  rw [hclz]
  have hofd : Nat.ofDigits 58 (List.replicate z 0 ++ (Nat.digits 58 n).reverse).reverse = n := by
    rw [List.reverse_append, List.reverse_reverse, List.reverse_replicate,
      Nat.ofDigits_append, ofDigits_replicate_zero, Nat.ofDigits_digits]
    simp
  rw [hofd]
  rw [digitsLE_eq_digits 256 n (by omega)]
  cases rest with
  | nil =>
    have hnz : n = 0 := by rw [hn0]; rfl
    rw [hnz]
    simp only [Nat.digits_zero, List.reverse_nil, List.append_nil]
    conv_rhs => rw [hdecomp, List.append_nil]
  | cons x t =>
    have hx : x ≠ 0 := hhead x rfl
    have hdig : Nat.digits 256 n = (x :: t).reverse := by
      rw [hn0]
      unfold natOfBytesBE
      apply Nat.digits_ofDigits 256 (by omega)
      · intro l hl
        apply hb
        rw [hdecomp]
        refine List.mem_append_right _ ?_
        rw [← List.mem_reverse]
        exact hl
      · intro hne
        rw [List.getLast_reverse]
        exact hx
    rw [hdig, List.reverse_reverse]
    conv_rhs => rw [hdecomp]

/-- Every character of base58 text is at least the code of the digit one. -/
theorem b58encode_ge_49 (data : Bytes) : ∀ c ∈ b58encode data, 49 ≤ c := by
  intro c hc
  unfold b58encode at hc
  rcases List.mem_append.mp hc with h | h
  · rw [List.eq_of_mem_replicate h]
  · obtain ⟨d, hd, hdc⟩ := List.mem_map.mp h
    have hd58 : d < 58 := by
      rw [digitsLE_eq_digits 58 _ (by omega)] at hd
      exact Nat.digits_lt_base (by omega) (List.mem_reverse.mp hd)
    have := b58Alphabet_bounds (b58Alphabet.getD d 0) (b58Alphabet_getD_mem d hd58)
    omega

/-- Base58 text of a byte string of length at least two has length at least
two. -/
theorem b58encode_length_ge_two (data : Bytes) (h2 : 2 ≤ data.length)
    (_hb : ∀ x ∈ data, x < 256) : 2 ≤ (b58encode data).length := by
  obtain ⟨hdecomp, hhead⟩ := clz_decomp data
  have hn0 : natOfBytesBE data = natOfBytesBE (data.drop (countLeadingZeros data)) := by
    conv_lhs => rw [hdecomp]
    exact natOfBytesBE_replicate_zero_append _ _
  obtain ⟨z, hz⟩ : ∃ z, countLeadingZeros data = z := ⟨_, rfl⟩
  obtain ⟨rest, hr⟩ : ∃ r, data.drop (countLeadingZeros data) = r := ⟨_, rfl⟩
  rw [hz] at hr
  rw [hz, hr] at hdecomp hhead
  rw [hz, hr] at hn0
  have hlen : (b58encode data).length =
      z + (Nat.digits 58 (natOfBytesBE data)).length := by
    unfold b58encode
    rw [hz, digitsLE_eq_digits 58 _ (by omega)]
    simp
  have hrl : z + rest.length = data.length := by
    conv_rhs => rw [hdecomp]
    simp [List.length_replicate]
  rcases Nat.lt_or_ge z 2 with hzlt | hzge
  · cases rest with
    | nil => simp at hrl; omega
    | cons x t =>
      have hx : x ≠ 0 := hhead x rfl
      have hlow := natOfBytesBE_head_lower x t
      have hpos : 0 < natOfBytesBE data := by
        rw [hn0]
        exact natOfBytesBE_pos x t hx
      have hd1 : 1 ≤ (Nat.digits 58 (natOfBytesBE data)).length := by
        have hne : Nat.digits 58 (natOfBytesBE data) ≠ [] :=
          Nat.digits_ne_nil_iff_ne_zero.mpr (by omega)
        cases hq : Nat.digits 58 (natOfBytesBE data) with
        | nil => exact absurd hq hne
        | cons a l => simp
      rcases Nat.eq_zero_or_pos z with hz0 | hz1
      · have htlen : 1 ≤ t.length := by
          simp only [List.length_cons] at hrl
          omega
        have h58 : 58 ≤ natOfBytesBE data := by
          rw [hn0]
          have h256 : (58 : Nat) ≤ 256 ^ t.length :=
            le_trans (by norm_num : (58 : Nat) ≤ 256 ^ 1)
              (Nat.pow_le_pow_right (by omega) htlen)
          have hx1 : 1 ≤ x := by omega
          calc (58 : Nat) ≤ 256 ^ t.length := h256
          _ = 1 * 256 ^ t.length := (one_mul _).symm
          _ ≤ x * 256 ^ t.length := Nat.mul_le_mul_right _ hx1
          _ ≤ natOfBytesBE (x :: t) := hlow
        have hd2 : 2 ≤ (Nat.digits 58 (natOfBytesBE data)).length := by
          by_contra hcon
          push_neg at hcon
          have hlt := @Nat.lt_base_pow_length_digits 58 (natOfBytesBE data) (by omega)
          have hpow : (58 : Nat) ^ (Nat.digits 58 (natOfBytesBE data)).length ≤ 58 ^ 1 :=
            Nat.pow_le_pow_right (by omega) (by omega)
          simp only [pow_one] at hpow
          omega
        omega
      · omega
  · omega

/-! ### External collaborator: multicodec registry

Modelled from the spec: the multicodec registry (py-multicodec) is an external
collaborator consumed through is_codec / add_prefix / remove_prefix /
get_codec / get_prefix.  The table below is the relevant fragment of the
published multicodec table (codec name, integer code); prefixes are the
canonical varint encodings of the codes. -/

def multicodecTable : List (String × Nat) :=
  [("dag-pb", 0x70), ("raw", 0x55), ("dag-cbor", 0x71), ("cbor", 0x51),
   ("dag-json", 0x0129), ("sha2-256", 0x12), ("sha2-512", 0x13),
   ("sha1", 0x11), ("eth-block", 0x90)]

/-- Modelled from the spec: multicodec.is_codec. -/
def isCodec (name : String) : Bool :=
  multicodecTable.any (fun p => p.1 = name)

/-- Modelled from the spec: multicodec.get_prefix, the varint prefix bytes
registered for a codec name. -/
def getPrefix (name : String) : Except Err Bytes :=
  match multicodecTable.find? (fun p => p.1 = name) with
  | some p => .ok (encodeVarint p.2)
  | none => .error .unknownCodec

/-- Split a standard little-endian varint off the front of a byte string
(used by the registry collaborators to read their prefixes): returns the
decoded value and the remaining bytes, or none when the data runs out before
a terminating byte. -/
def varintSplit : Bytes → Option (Nat × Bytes)
  | [] => none
  | b :: rest =>
    if b < 128 then some (b, rest)
    else
      match varintSplit rest with
      | some (v, r) => some ((b % 128) + 128 * v, r)
      | none => none

theorem varintSplit_enc (n : Nat) :
    ∀ rest, varintSplit (encodeVarint n ++ rest) = some (n, rest) := by
  induction n using Nat.strong_induction_on with
  | _ n ih =>
    intro rest
    rw [encodeVarint_unfold]
    split
    · rename_i hv
      simp only [List.cons_append, varintSplit, List.append_eq]
      rw [if_neg (by omega)]
      rw [ih (n / 128) (Nat.div_lt_self (by omega) (by omega)) rest]
      have h128 : n % 128 + 128 * (n / 128) = n := Nat.mod_add_div n 128
      simp [h128]
    · rename_i hv
      simp only [List.cons_append, varintSplit, List.nil_append, List.append_eq]
      rw [if_pos (by omega)]

theorem varintSplit_append (l : Bytes) :
    ∀ e v r, varintSplit l = some (v, r) → varintSplit (l ++ e) = some (v, r ++ e) := by
  induction l with
  | nil => intro e v r h; simp [varintSplit] at h
  | cons b rest ih =>
    intro e v r h
    simp only [varintSplit] at h
    simp only [List.cons_append, varintSplit, List.append_eq]
    by_cases hb : b < 128
    · rw [if_pos hb] at h ⊢
      cases h
      rfl
    · rw [if_neg hb] at h ⊢
      cases hs : varintSplit rest with
      | none => rw [hs] at h; cases h
      | some p =>
        rw [hs] at h
        obtain ⟨v0, r0⟩ := p
        simp only at h
        have h2 := Option.some.inj h
        have hv : b % 128 + 128 * v0 = v := congrArg Prod.fst h2
        have hr : r0 = r := congrArg Prod.snd h2
        subst hv
        subst hr
        rw [ih e v0 r0 hs]

/-- Modelled from the spec: multicodec.get_codec, reading the varint prefix
at the head of the data and mapping the code back to a codec name. -/
def getCodec (data : Bytes) : Except Err String :=
  match varintSplit data with
  | none => .error .unknownCodec
  | some (code, _) =>
    match multicodecTable.find? (fun p => p.2 = code) with
    | some p => .ok p.1
    | none => .error .unknownCodec

/-- Modelled from the spec: multicodec.remove_prefix, dropping the varint
prefix from the head of the data. -/
def removePrefix (data : Bytes) : Except Err Bytes :=
  match varintSplit data with
  | none => .error .unknownCodec
  | some (_, rest) => .ok rest

/-- Modelled from the spec: multicodec.add_prefix. -/
def addPrefix (name : String) (data : Bytes) : Except Err Bytes := do
  let p ← getPrefix name
  return p ++ data

/-! ### External collaborator: multihash structural decoder

Modelled from the spec: multihash.decode is the structural validator
(hash-code, declared length, digest length consistency).  Hash codes are the
published multihash codes; application-specific codes 0x01-0x0f are accepted
as in py-multihash. -/

def hashCodeTable : List (String × Nat) :=
  [("sha1", 0x11), ("sha2-256", 0x12), ("sha2-512", 0x13), ("sha3-512", 0x14),
   ("sha3-256", 0x16), ("sha3-224", 0x17), ("blake2b-256", 0xB220),
   ("blake2b-512", 0xB240)]

def isAppCode (code : Nat) : Bool := 0 < code && code < 0x10

def isValidHashCode (code : Nat) : Bool :=
  isAppCode code || hashCodeTable.any (fun p => p.2 = code)

/-- Decoded multihash structure: hash code, declared digest length, digest. -/
structure MHInfo where
  code : Nat
  length : Nat
  digest : Bytes
  deriving DecidableEq, Repr

/-- Modelled from the spec: multihash.decode, the structural validator.
Requires at least 3 bytes, a known hash-function code, and a digest whose
length equals the declared length. -/
def mhDecode (data : Bytes) : Except Err MHInfo :=
  if data.length < 3 then .error .invalidMultihashStructure
  else
    match varintSplit data with
    | none => .error .invalidMultihashStructure
    | some (code, rest) =>
      if ¬ isValidHashCode code then .error .unknownHashCode
      else
        match varintSplit rest with
        | none => .error .invalidMultihashStructure
        | some (len, digest) =>
          if digest.length ≠ len then .error .invalidMultihashStructure
          else .ok ⟨code, len, digest⟩

/-- A byte string is a structurally valid multihash when the collaborator
decoder accepts it. -/
def validMultihash (data : Bytes) : Bool := (mhDecode data).toBool

/-- Modelled from the spec: multihash.encode; the digest length must match the
requested length (or the digest length is used when none is given). -/
def mhEncode (digest : Bytes) (name : String) (length : Option Int) : Except Err Bytes :=
  match hashCodeTable.find? (fun p => p.1 = name) with
  | none => .error .unknownHashType
  | some p =>
    let len : Int := length.getD (digest.length : Int)
    if (digest.length : Int) ≠ len then .error .invalidMultihashStructure
    else .ok (encodeVarint p.2 ++ encodeVarint len.toNat ++ digest)

/-! ### External collaborator: multibase

Modelled from the spec: the multibase registry of py-multibase.  The table is
the published (encoding name, prefix byte) table; is_encoded checks whether the
first byte is a registered prefix code.  Only the base58btc payload codec (the
one the core exercises on its default path) is given a concrete
implementation; requesting another payload codec yields unknownEncoding in
this model. -/

def multibaseTable : List (String × Nat) :=
  [("identity", 0x00), ("base2", 48), ("base8", 55), ("base10", 57),
   ("base16", 102), ("base16upper", 70), ("base32hex", 118),
   ("base32hexupper", 86), ("base32hexpad", 116), ("base32hexpadupper", 84),
   ("base32", 98), ("base32upper", 66), ("base32pad", 99),
   ("base32padupper", 67), ("base32z", 104), ("base58flickr", 90),
   ("base58btc", 122), ("base64", 109), ("base64pad", 77),
   ("base64url", 117), ("base64urlpad", 85)]

/-- Modelled from the spec: multibase.is_encoded, true when the first byte is
a registered multibase prefix code. -/
def multibaseIsEncoded (data : Bytes) : Bool :=
  match data.head? with
  | some c => multibaseTable.any (fun p => p.2 = c)
  | none => false

/-- Modelled from the spec: multibase.encode, prefixing the encoded payload
with the registered code of the encoding. -/
def multibaseEncode (name : String) (data : Bytes) : Except Err Bytes :=
  if name = "base58btc" then .ok (122 :: b58encode data)
  else .error .unknownEncoding

/-- Modelled from the spec: multibase.decode, dispatching on the prefix byte. -/
def multibaseDecode (data : Bytes) : Except Err Bytes :=
  match data.head? with
  | some c => if c = 122 then b58decode data.tail else .error .unknownEncoding
  | none => .error .unknownEncoding

/-! ### Registry table facts -/

theorem multicodecTable_codes_lt : ∀ p ∈ multicodecTable, p.2 < 2 ^ 63 := by decide

theorem multicodecTable_find_code :
    ∀ p ∈ multicodecTable, multicodecTable.find? (fun q => q.2 = p.2) = some p := by decide

theorem multicodecTable_find_name :
    ∀ p ∈ multicodecTable, multicodecTable.find? (fun q => q.1 = p.1) = some p := by decide

theorem isCodec_of_mem (p : String × Nat) (hp : p ∈ multicodecTable) :
    isCodec p.1 = true := by
  unfold isCodec
  rw [List.any_eq_true]
  exact ⟨p, hp, by simp⟩

theorem getPrefix_of_mem (p : String × Nat) (hp : p ∈ multicodecTable) :
    getPrefix p.1 = .ok (encodeVarint p.2) := by
  unfold getPrefix
  rw [multicodecTable_find_name p hp]

theorem getCodec_of_mem (p : String × Nat) (hp : p ∈ multicodecTable) (rest : Bytes) :
    getCodec (encodeVarint p.2 ++ rest) = .ok p.1 := by
  unfold getCodec
  rw [varintSplit_enc p.2 rest]
  simp only [multicodecTable_find_code p hp]

theorem removePrefix_enc (n : Nat) (rest : Bytes) :
    removePrefix (encodeVarint n ++ rest) = .ok rest := by
  unfold removePrefix
  rw [varintSplit_enc n rest]

/-- Every codec name reported by isCodec has a registry entry. -/
theorem exists_mem_of_isCodec (name : String) (h : isCodec name = true) :
    ∃ p ∈ multicodecTable, p.1 = name := by
  unfold isCodec at h
  rw [List.any_eq_true] at h
  obtain ⟨p, hp, hname⟩ := h
  exact ⟨p, hp, by simpa using hname⟩

/-- Inversion of the multihash structural validator. -/
theorem mhDecode_inv (mh : Bytes) (info : MHInfo) (h : mhDecode mh = .ok info) :
    3 ≤ mh.length ∧ isValidHashCode info.code = true ∧
      ∃ rest1, varintSplit mh = some (info.code, rest1) ∧
        varintSplit rest1 = some (info.length, info.digest) ∧
        info.digest.length = info.length := by
  unfold mhDecode at h
  split at h
  · cases h
  · rename_i hlen
    cases hs : varintSplit mh with
    | none => rw [hs] at h; cases h
    | some p =>
      rw [hs] at h
      obtain ⟨code, rest1⟩ := p
      simp only at h
      split at h
      · cases h
      · rename_i hcode
        cases hs2 : varintSplit rest1 with
        | none => rw [hs2] at h; cases h
        | some q =>
          rw [hs2] at h
          obtain ⟨len, digest⟩ := q
          simp only at h
          split at h
          · cases h
          · rename_i hdig
            cases h
            push_neg at hdig
            refine ⟨by omega, ?_, rest1, ?_, ?_, ?_⟩
            · simpa using hcode
            · rfl
            · exact hs2
            · exact hdig

/-- Appending extra bytes to a structurally valid multihash always breaks the
digest-length consistency check. -/
theorem mhDecode_append_extra (mh extra : Bytes) (info : MHInfo)
    (h : mhDecode mh = .ok info) (hx : extra ≠ []) :
    mhDecode (mh ++ extra) = .error .invalidMultihashStructure := by
  obtain ⟨hlen, hcode, rest1, hs, hs2, hdig⟩ := mhDecode_inv mh info h
  have hx1 : 1 ≤ extra.length := by
    cases extra with
    | nil => exact absurd rfl hx
    | cons a l => simp
  unfold mhDecode
  rw [if_neg (by simp only [List.length_append]; omega)]
  rw [varintSplit_append mh extra info.code rest1 hs]
  simp only []
  rw [if_neg (by simp [hcode])]
  rw [varintSplit_append rest1 extra info.length info.digest hs2]
  simp only []
  rw [if_pos (by simp only [List.length_append]; omega)]

/-! ### CID value type (cid/cid.py) -/

/-- A CID value: BaseCID stores exactly the (version, codec, multihash)
triple, and equality (BaseCID.__eq__) compares that triple. -/
structure CID where
  version : Nat
  codec : String
  multihash : Bytes
  deriving DecidableEq, Repr

/-- CIDv0.__init__: version 0, codec fixed to dag-pb. -/
def CIDv0 (multihash : Bytes) : CID := ⟨0, "dag-pb", multihash⟩

/-- CIDv1.__init__: version 1 with the given codec. -/
def CIDv1 (codec : String) (multihash : Bytes) : CID := ⟨1, codec, multihash⟩

/-- CIDv0.buffer is the bare multihash; CIDv1.buffer is the version byte
followed by the codec-prefixed multihash (multicodec.add_prefix). -/
def CID.buffer (c : CID) : Except Err Bytes :=
  if c.version = 0 then .ok c.multihash
  else do
    let d ← addPrefix c.codec c.multihash
    return c.version :: d

/-- CIDv0.encode ignores its encoding argument and returns the bare base58
text of the buffer; CIDv1.encode multibase-encodes the buffer with the
requested encoding. -/
def CID.encodeWith (c : CID) (encoding : String) : Except Err Bytes :=
  if c.version = 0 then .ok (b58encode c.multihash)
  else do
    let buf ← c.buffer
    multibaseEncode encoding buf

/-- encode() with the default argument: base58btc for CIDv1 (and the argument
is irrelevant for CIDv0). -/
def CID.encode (c : CID) : Except Err Bytes := c.encodeWith "base58btc"

/-- CIDv0.to_v1: always succeeds, codec stays dag-pb. -/
def CID.to_v1 (c : CID) : CID := CIDv1 "dag-pb" c.multihash

/-- CIDv1.to_v0: only for codec dag-pb, otherwise ValueError. -/
def CID.to_v0 (c : CID) : Except Err CID :=
  if c.codec ≠ "dag-pb" then .error .codecVersionMismatch
  else .ok (CIDv0 c.multihash)

/-- make_cid(version, codec, multihash): the validating constructor
(cid.py lines 310-330): version must be 0 or 1, codec must be registered, and
version 0 forces codec dag-pb. -/
def make_cid (version : Nat) (codec : String) (multihash : Bytes) : Except Err CID :=
  if version ≠ 0 ∧ version ≠ 1 then .error .invalidVersion
  else if ¬ isCodec codec then .error .unknownCodec
  else if version = 0 then
    if codec ≠ "dag-pb" then .error .codecVersionMismatch
    else .ok (CIDv0 multihash)
  else .ok (CIDv1 codec multihash)

/-! ### Parser / disambiguator (cid/cid.py from_bytes and friends) -/

/-- The three-way dispatch of from_bytes (cid.py lines 425-450), parameterised
by the collaborator predicate multibase.is_encoded: too-short inputs are
rejected, then a buffer whose first byte is non-zero and which the registry
reports as encoded goes to the multibase branch, then a first byte of 0 or 1
selects the raw branch, and everything else is treated as base58 text. -/
inductive Branch where
  | tooShort
  | multibase
  | raw
  | base58
  deriving DecidableEq, Repr

def fromBytesBranch (isEnc : Bytes → Bool) (cidbytes : Bytes) : Branch :=
  if cidbytes.length < 2 then .tooShort
  else if cidbytes.headD 0 ≠ 0 ∧ isEnc cidbytes then .multibase
  else if cidbytes.headD 0 = 0 ∨ cidbytes.headD 0 = 1 then .raw
  else .base58

/-- The shared tail of the multibase and raw branches of from_bytes: split the
codec prefix off the remainder, validate the multihash structurally
(mh.decode), and run the validating constructor. -/
def parseTagged (version : Nat) (data : Bytes) : Except Err CID := do
  let codec ← getCodec data
  let mhash ← removePrefix data
  let _ ← mhDecode mhash
  make_cid version codec mhash

/-- from_bytes with the multibase collaborator passed explicitly (the source
consumes it through the narrow is_encoded / decode interface). -/
def fromBytesWith (isEnc : Bytes → Bool) (mbDecode : Bytes → Except Err Bytes)
    (cidbytes : Bytes) : Except Err CID :=
  match fromBytesBranch isEnc cidbytes with
  | .tooShort => .error .tooShort
  | .multibase => do
    let cid ← mbDecode cidbytes
    if cid.length < 2 then .error .invalidCIDLength
    else parseTagged (cid.headD 0) cid.tail
  | .raw => parseTagged (cidbytes.headD 0) cidbytes.tail
  | .base58 =>
    match b58decode cidbytes with
    | .error _ => .error .invalidBase58Multihash
    | .ok mhash => do
      let _ ← mhDecode mhash
      make_cid 0 "dag-pb" mhash

/-- from_bytes with the concrete multibase collaborator model. -/
def from_bytes (cidbytes : Bytes) : Except Err CID :=
  fromBytesWith multibaseIsEncoded multibaseDecode cidbytes

/-- The canonical-length computation of from_bytes_strict (cid.py 510-517). -/
def expectedLen (cid : CID) : Except Err Nat :=
  if cid.version = 0 then .ok cid.multihash.length
  else do
    let p ← getPrefix cid.codec
    return 1 + p.length + cid.multihash.length

/-- from_bytes_strict: parse, then reject inputs longer than the canonical
buffer of the parsed CID. -/
def from_bytes_strict (cidbytes : Bytes) : Except Err CID := do
  let cid ← from_bytes cidbytes
  let el ← expectedLen cid
  if cidbytes.length > el then .error .trailingBytes
  else return cid

/-- The consumed varint bytes of the CIDv1 codec loop in from_reader: bytes up
to and including the first byte with its high bit clear, none when the stream
runs out first. -/
def readVarintBytes : Bytes → Option (Bytes × Bytes)
  | [] => none
  | b :: rest =>
    if b < 128 then some ([b], rest)
    else
      match readVarintBytes rest with
      | some (v, r) => some (b :: v, r)
      | none => none

theorem readVarintBytes_enc (n : Nat) :
    ∀ rest, readVarintBytes (encodeVarint n ++ rest) = some (encodeVarint n, rest) := by
  induction n using Nat.strong_induction_on with
  | _ n ih =>
    intro rest
    conv_lhs => rw [encodeVarint_unfold]
    conv_rhs => rw [encodeVarint_unfold]
    split
    · rename_i hv
      simp only [List.cons_append, readVarintBytes, List.append_eq]
      rw [if_neg (by omega)]
      rw [ih (n / 128) (Nat.div_lt_self (by omega) (by omega)) rest]
    · rename_i hv
      simp only [List.cons_append, readVarintBytes, List.append_eq]
      rw [if_pos (by omega)]
      simp

theorem readVarintBytes_allCont (l : Bytes) :
    (∀ b ∈ l, 128 ≤ b) → readVarintBytes l = none := by
  induction l with
  | nil => intro _; rfl
  | cons b rest ih =>
    intro h
    simp only [readVarintBytes]
    rw [if_neg (by have := h b (by simp); omega)]
    rw [ih (fun x hx => h x (by simp [hx]))]

/-- from_reader (cid.py 527-608) over a stream modelled as the byte list the
reader yields; read(n) returns up to n bytes.  Note the version-0 path
performs no length check on the digest read. -/
def from_reader (stream : Bytes) : Except Err (Nat × CID) :=
  match stream with
  | [] => .error .unexpectedEof
  | version :: rest =>
    if version = 0 then
      let peek := rest.take 2
      if peek.length < 2 then .error .unexpectedEof
      else
        let mhLen := peek.getD 1 0
        let digest := (rest.drop 2).take mhLen
        let multihashBytes := version :: (peek ++ digest)
        do
          let cid ← from_bytes multihashBytes
          return (multihashBytes.length, cid)
    else if version = 1 then
      match readVarintBytes rest with
      | none => .error .unexpectedEof
      | some (vbytes, rest2) =>
        let peek := rest2.take 2
        if peek.length < 2 then .error .unexpectedEof
        else
          let mhLen := peek.getD 1 0
          let digest := (rest2.drop 2).take mhLen
          if digest.length < mhLen then .error .unexpectedEof
          else
            let assembled := version :: vbytes ++ peek ++ digest
            do
              let cid ← from_bytes assembled
              return (1 + vbytes.length + 2 + digest.length, cid)
    else .error .invalidVersion

/-- The parseTagged helper on a codec-prefixed valid multihash. -/
theorem parseTagged_ok (version : Nat) (p : String × Nat) (hp : p ∈ multicodecTable)
    (mh : Bytes) (info : MHInfo) (hmh : mhDecode mh = .ok info) :
    parseTagged version (encodeVarint p.2 ++ mh) = make_cid version p.1 mh := by
  simp only [parseTagged, getCodec_of_mem p hp mh, removePrefix_enc p.2 mh, hmh,
    bind, Except.bind]

theorem make_cid_v1 (codec : String) (mh : Bytes) (h : isCodec codec = true) :
    make_cid 1 codec mh = .ok (CIDv1 codec mh) := by
  unfold make_cid
  rw [if_neg (by simp), if_neg (by simp [h]), if_neg (by simp)]

theorem make_cid_v0 (mh : Bytes) : make_cid 0 "dag-pb" mh = .ok (CIDv0 mh) := by
  unfold make_cid
  rw [if_neg (by simp), if_neg (by decide), if_pos rfl, if_neg (by simp)]

theorem decodeVarint_enc_exact (n : Nat) (hn : n < 2 ^ 63) :
    decodeVarint (encodeVarint n) 0 = .ok (n, (encodeVarint n).length) := by
  have h := decodeVarint_encodeVarint n [] hn
  rwa [List.append_nil] at h

theorem getCodec_enc_exact (p : String × Nat) (hp : p ∈ multicodecTable) :
    getCodec (encodeVarint p.2) = .ok p.1 := by
  have h := getCodec_of_mem p hp []
  rwa [List.append_nil] at h

theorem validMultihash_ok (mh : Bytes) (h : validMultihash mh = true) :
    ∃ info, mhDecode mh = .ok info := by
  unfold validMultihash at h
  cases hm : mhDecode mh with
  | ok info => exact ⟨info, rfl⟩
  | error e => rw [hm] at h; cases h

/-- A first byte of 1 is never a registered multibase prefix code. -/
theorem multibaseIsEncoded_one (l : Bytes) : multibaseIsEncoded (1 :: l) = false := rfl

/-- The head of a nonempty list is a member. -/
theorem headD_mem (l : Bytes) (hne : l ≠ []) : l.headD 0 ∈ l := by
  cases l with
  | nil => exact absurd rfl hne
  | cons a t => simp

/-- Dispatch of a raw version-1-tagged buffer: raw branch. -/
theorem fromBytesBranch_v1 (isEnc : Bytes → Bool) (t : Bytes) (h2 : t ≠ [])
    (henc : isEnc (1 :: t) = false) :
    fromBytesBranch isEnc (1 :: t) = .raw := by
  unfold fromBytesBranch
  rw [if_neg (by
    simp only [List.length_cons]
    cases t with
    | nil => exact absurd rfl h2
    | cons a l => simp)]
  rw [if_neg (by simp [henc])]
  rw [if_pos (by simp)]

/-- from_bytes on a raw version-1 buffer built from a registered codec and a
structurally valid multihash. -/
theorem from_bytes_v1_buffer (p : String × Nat) (hp : p ∈ multicodecTable)
    (mh : Bytes) (info : MHInfo) (hmh : mhDecode mh = .ok info) :
    from_bytes (1 :: (encodeVarint p.2 ++ mh)) = .ok (CIDv1 p.1 mh) := by
  unfold from_bytes fromBytesWith
  rw [fromBytesBranch_v1 multibaseIsEncoded _ (by simp [encodeVarint_ne_nil])
    (multibaseIsEncoded_one _)]
  simp only [List.headD_cons, List.tail_cons]
  rw [parseTagged_ok 1 p hp mh info hmh]
  exact make_cid_v1 p.1 mh (isCodec_of_mem p hp)

/-- from_bytes on base58btc multibase text decodes the payload and parses it
as a version-tagged buffer. -/
theorem from_bytes_z (buf : Bytes) (h2 : 2 ≤ buf.length) (hb : ∀ x ∈ buf, x < 256) :
    from_bytes (122 :: b58encode buf) = parseTagged (buf.headD 0) buf.tail := by
  unfold from_bytes fromBytesWith
  have henc2 := b58encode_length_ge_two buf h2 hb
  have hbranch : fromBytesBranch multibaseIsEncoded (122 :: b58encode buf) = .multibase := by
    unfold fromBytesBranch
    rw [if_neg (by simp only [List.length_cons]; omega)]
    rw [if_pos ⟨by simp, by rfl⟩]
  rw [hbranch]
  have hdec : multibaseDecode (122 :: b58encode buf) = .ok buf := by
    unfold multibaseDecode
    simp only [List.head?_cons, List.tail_cons]
    rw [if_pos trivial]
    exact b58decode_b58encode buf hb
  simp only [hdec, bind, Except.bind]
  rw [if_neg (by omega)]

/-- from_bytes on bare base58 text of a valid multihash, provided the text is
not recognized by the multibase registry. -/
theorem from_bytes_b58_text (mh : Bytes) (info : MHInfo) (hmh : mhDecode mh = .ok info)
    (hb : ∀ x ∈ mh, x < 256)
    (hne : multibaseIsEncoded (b58encode mh) = false) :
    from_bytes (b58encode mh) = .ok (CIDv0 mh) := by
  unfold from_bytes fromBytesWith
  have h3 : 3 ≤ mh.length := (mhDecode_inv mh info hmh).1
  have henc2 : 2 ≤ (b58encode mh).length := b58encode_length_ge_two mh (by omega) hb
  have hhead : 49 ≤ (b58encode mh).headD 0 := by
    apply b58encode_ge_49
    apply headD_mem
    intro hnil
    rw [hnil] at henc2
    simp at henc2
  have hbranch : fromBytesBranch multibaseIsEncoded (b58encode mh) = .base58 := by
    unfold fromBytesBranch
    rw [if_neg (by omega)]
    rw [if_neg (by simp [hne])]
    rw [if_neg (by omega)]
  rw [hbranch]
  rw [b58decode_b58encode mh hb]
  simp only [hmh, bind, Except.bind]
  exact make_cid_v0 mh

/-! ### Prefix (cid/prefix.py) -/

/-- Prefix value: metadata-only projection of a CID.  mhLength is an Int so
the -1 default-length sentinel is representable. -/
structure Prefix where
  version : Nat
  codec : String
  mhType : String
  mhLength : Int
  deriving DecidableEq, Repr

/-- Prefix.__init__ (prefix.py 74-103): validates version, the version-0
dag-pb coupling and registry membership of the codec; the mh_type string is
accepted unchecked. -/
def Prefix.init (version : Nat) (codec : String) (mhType : String)
    (mhLength : Int) : Except Err Prefix :=
  if version ≠ 0 ∧ version ≠ 1 then .error .invalidVersion
  else if version = 0 ∧ codec ≠ "dag-pb" then .error .codecVersionMismatch
  else if ¬ isCodec codec then .error .unknownCodec
  else .ok ⟨version, codec, mhType, mhLength⟩

/-- The fixed name-to-code table of Prefix._mh_type_to_code
(prefix.py 220-229). -/
def mhCodes : List (String × Nat) :=
  [("sha1", 0x11), ("sha2-256", 0x12), ("sha2-512", 0x13), ("sha3-224", 0x17),
   ("sha3-256", 0x16), ("sha3-512", 0x14), ("blake2b-256", 0xB220),
   ("blake2b-512", 0xB240)]

/-- Prefix._mh_type_to_code: unknown names fail. -/
def mhTypeToCode (mhType : String) : Except Err Nat :=
  match mhCodes.find? (fun p => p.1 = mhType) with
  | some p => .ok p.2
  | none => .error .unknownHashType

/-- The fixed code-to-name table of Prefix._mh_code_to_type
(prefix.py 238-247). -/
def mhTypes : List (Nat × String) :=
  [(0x11, "sha1"), (0x12, "sha2-256"), (0x13, "sha2-512"), (0x17, "sha3-224"),
   (0x16, "sha3-256"), (0x14, "sha3-512"), (0xB220, "blake2b-256"),
   (0xB240, "blake2b-512")]

/-- Prefix._mh_code_to_type: unknown codes fail. -/
def mhCodeToType (code : Nat) : Except Err String :=
  match mhTypes.find? (fun p => p.1 = code) with
  | some p => .ok p.2
  | none => .error .unknownHashCode

/-- Prefix.to_bytes (prefix.py 141-167): version byte, then the codec code
recovered by round-tripping the registry prefix through the varint codec, then
the hash-type code from the fixed table, then the length (0 stands for the
default sentinel). -/
def Prefix.to_bytes (p : Prefix) : Except Err Bytes := do
  let codecPfx ← getPrefix p.codec
  let (codecCode, _) ← decodeVarint codecPfx 0
  let codecBytes := encodeVarint codecCode
  let mhTypeCode ← mhTypeToCode p.mhType
  let mhTypeBytes := encodeVarint mhTypeCode
  let mhLengthBytes := encodeVarint (if p.mhLength ≥ 0 then p.mhLength.toNat else 0)
  return p.version :: codecBytes ++ mhTypeBytes ++ mhLengthBytes

/-- Prefix.from_bytes (prefix.py 169-213): version byte (0 or 1), three
varints; a decoded length of 0 is re-expanded to the -1 sentinel; ends in the
validating constructor. -/
def Prefix.from_bytes (data : Bytes) : Except Err Prefix :=
  if data.length < 1 then .error .tooShort
  else
    let version := data.headD 0
    if version ≠ 0 ∧ version ≠ 1 then .error .invalidVersion
    else do
      let (codecCode, n1) ← decodeVarint data 1
      let codec ← getCodec (encodeVarint codecCode)
      let (mhCode, n2) ← decodeVarint data (1 + n1)
      let mhType ← mhCodeToType mhCode
      let (mhLen, _) ← decodeVarint data (1 + n1 + n2)
      let mhLength : Int := if mhLen = 0 then -1 else (mhLen : Int)
      Prefix.init version codec mhType mhLength

/-- Prefix.sum (prefix.py 105-139), parameterised by the external hash
implementations: only sha2-256 and sha2-512 are implemented; anything else
fails before hashing. -/
def Prefix.sum (sha256 sha512 : Bytes → Bytes) (p : Prefix) (data : Bytes) :
    Except Err CID := do
  let digest ←
    if p.mhType = "sha2-256" then Except.ok (sha256 data)
    else if p.mhType = "sha2-512" then Except.ok (sha512 data)
    else Except.error Err.unsupportedHashAlgorithm
  let mhash ← mhEncode digest p.mhType
    (if p.mhLength = -1 then none else some p.mhLength)
  if p.version = 0 then return CIDv0 mhash
  else return CIDv1 p.codec mhash

/-! ### CIDSet (cid/set.py) -/

/-- A CIDSet is a value-equality collection; modelled as the list of inserted
members, newest first, with no duplicates by construction. -/
abbrev CIDSet := List CID

/-- CIDSet.has: value-based membership. -/
def CIDSet.has (s : CIDSet) (c : CID) : Bool := s.contains c

/-- CIDSet.add: set insertion, a no-op when the value is present. -/
def CIDSet.add (s : CIDSet) (c : CID) : CIDSet :=
  if s.contains c then s else c :: s

/-- CIDSet.remove: discard, no error when absent. -/
def CIDSet.remove (s : CIDSet) (c : CID) : CIDSet :=
  s.filter (fun x => x ≠ c)

/-- CIDSet.__len__. -/
def CIDSet.size (s : CIDSet) : Nat := s.length

/-- CIDSet.visit (set.py 66-78): insert if absent and report whether the value
was newly added. -/
def CIDSet.visit (s : CIDSet) (c : CID) : Bool × CIDSet :=
  if s.contains c then (false, s) else (true, c :: s)

/-! ### Further varint loop facts (used by the C3 characterization) -/

/-- The decode loop errors once a continuation byte is consumed with the shift
guard tripped, which happens within any run of continuation bytes long enough
to push the shift to 64. -/
theorem decodeVarintLoop_allCont_fail (bs : Bytes) :
    ∀ rest value shift consumed, bs ≠ [] → (∀ b ∈ bs, 128 ≤ b) →
      64 ≤ shift + 7 * bs.length →
      decodeVarintLoop (bs ++ rest) value shift consumed = .error .malformedVarint := by
  induction bs with
  | nil => intro rest value shift consumed hne _ _; exact absurd rfl hne
  | cons b t ih =>
    intro rest value shift consumed _ hcont hshift
    simp only [List.cons_append, decodeVarintLoop]
    rw [if_neg (by have := hcont b (by simp); omega)]
    by_cases hg : shift + 7 ≥ 64
    · rw [if_pos hg]
    · rw [if_neg hg]
      have htne : t ≠ [] := by
        intro hnil
        rw [hnil] at hshift
        simp at hshift
        omega
      apply ih rest _ (shift + 7) _ htne (fun x hx => hcont x (by simp [hx]))
      simp only [List.length_cons] at hshift
      omega

/-- The decode loop returns the accumulated value when the data is exhausted
inside a short run of continuation bytes. -/
theorem decodeVarintLoop_allCont_ok (bs : Bytes) :
    ∀ value shift consumed, (∀ b ∈ bs, 128 ≤ b) → shift + 7 * bs.length < 64 →
      decodeVarintLoop bs value shift consumed =
        .ok (value + accumLE bs * 2 ^ shift, consumed + bs.length) := by
  induction bs with
  | nil =>
    intro value shift consumed _ _
    simp [decodeVarintLoop, accumLE]
  | cons b t ih =>
    intro value shift consumed hcont hshift
    simp only [decodeVarintLoop]
    rw [if_neg (by have := hcont b (by simp); omega)]
    rw [if_neg (by simp only [List.length_cons] at hshift; omega)]
    rw [ih _ (shift + 7) _ (fun x hx => hcont x (by simp [hx]))
      (by simp only [List.length_cons] at hshift; omega)]
    have expand : accumLE (b :: t) * 2 ^ shift =
        b % 128 * 2 ^ shift + accumLE t * 2 ^ (shift + 7) := by
      simp only [accumLE]
      rw [pow_add]
      ring
    congr 1
    · congr 1
      · rw [expand]
        ring
      · simp only [List.length_cons]
        omega

/-! ### Table facts and offset-parsing helpers for the Prefix round trip -/

theorem mhCodes_find : ∀ q ∈ mhCodes, mhCodes.find? (fun r => r.1 = q.1) = some q := by
  decide

theorem mhCodes_lt : ∀ q ∈ mhCodes, q.2 < 2 ^ 63 := by decide

theorem mhCodes_inverse : ∀ q ∈ mhCodes, mhCodeToType q.2 = .ok q.1 := by decide

theorem decodeVarint_at_off (pre : Bytes) (n : Nat) (post : Bytes) (off : Nat)
    (hoff : off = pre.length) (hn : n < 2 ^ 63) :
    decodeVarint (pre ++ encodeVarint n ++ post) off =
      .ok (n, (encodeVarint n).length) := by
  subst hoff
  exact decodeVarint_at pre n post hn

theorem decodeVarint_at_end (pre : Bytes) (n : Nat) (off : Nat)
    (hoff : off = pre.length) (hn : n < 2 ^ 63) :
    decodeVarint (pre ++ encodeVarint n) off = .ok (n, (encodeVarint n).length) := by
  have h := decodeVarint_at_off pre n [] off hoff hn
  rwa [List.append_nil] at h

theorem Prefix.init_ok (v : Nat) (c s : String) (l : Int) (hv : v = 0 ∨ v = 1)
    (hv0 : v = 0 → c = "dag-pb") (hc : isCodec c = true) :
    Prefix.init v c s l = .ok ⟨v, c, s, l⟩ := by
  unfold Prefix.init
  rw [if_neg (by rcases hv with h | h <;> simp [h])]
  rw [if_neg (by intro hcon; exact hcon.2 (hv0 hcon.1))]
  rw [if_neg (by simp [hc])]

/-! ### Claims -/

/-- C1 counterexample: a two-byte buffer whose first byte is 1 is routed
through the multibase-decode branch as soon as the registry predicate reports
it as encoded, refuting the claim that a first byte of 0 or 1 never reaches
that branch.  The third conjunct observes the decode collaborator actually
being invoked. -/
theorem C1_counterexample :
    (2 ≤ ([1, 0] : Bytes).length ∧ ([1, 0] : Bytes).headD 0 = 1) ∧
    fromBytesBranch (fun _ => true) [1, 0] = Branch.multibase ∧
    fromBytesWith (fun _ => true) (fun _ => .error .unknownEncoding) [1, 0] =
      .error .unknownEncoding :=
  ⟨⟨by decide, rfl⟩, rfl, rfl⟩

/-- C1 amended: for buffers of length at least two, a first byte of 0 never
reaches the multibase branch whatever the registry answers; a first byte of 1
avoids it exactly when the registry does not report the buffer as encoded; and
under the concrete multibase registry model (no registered prefix code is the
byte 1, while byte 0 short-circuits) every buffer with first byte 0 or 1 takes
the raw branch. -/
theorem C1_amended (isEnc : Bytes → Bool) (data : Bytes) (h2 : 2 ≤ data.length) :
    (data.headD 0 = 0 → fromBytesBranch isEnc data = .raw) ∧
    (data.headD 0 = 1 → isEnc data = false → fromBytesBranch isEnc data = .raw) ∧
    ((data.headD 0 = 0 ∨ data.headD 0 = 1) →
      fromBytesBranch multibaseIsEncoded data = .raw) := by
  refine ⟨?_, ?_, ?_⟩
  · intro h0
    unfold fromBytesBranch
    rw [if_neg (by omega), if_neg (fun hcon => hcon.1 h0), if_pos (Or.inl h0)]
  · intro h1 hisenc
    unfold fromBytesBranch
    rw [if_neg (by omega),
      if_neg (by intro hcon; exact absurd hcon.2 (by simp [hisenc])),
      if_pos (Or.inr h1)]
  · intro hd
    cases data with
    | nil => simp at h2
    | cons d t =>
      simp only [List.headD_cons] at hd
      unfold fromBytesBranch
      rcases hd with h0 | h1
      · subst h0
        rw [if_neg (by omega), if_neg (by simp), if_pos (by simp)]
      · subst h1
        rw [if_neg (by omega),
          if_neg (by rw [multibaseIsEncoded_one t]; simp),
          if_pos (by simp)]

theorem C1_witness : fromBytesBranch multibaseIsEncoded [1, 85] = .raw :=
  (C1_amended multibaseIsEncoded [1, 85] (by decide)).2.2 (Or.inr rfl)

/-- C3 counterexample: the single continuation byte 0x80 exhausts the input
before any terminating byte, yet _decode_varint quietly returns the
accumulated value 0 with one byte consumed instead of failing. -/
theorem C3_counterexample : decodeVarint [128] 0 = .ok (0, 1) := rfl

/-- C3 amended: _decode_varint fails in exactly two situations, but they are
not the claimed ones: (a) no byte is available at the offset, and (b) a run of
ten continuation bytes trips the 64-bit shift guard.  An input exhausted
during a run of at most nine continuation bytes silently returns the 7-bit
little-endian accumulation and the count consumed, and a well-formed varint of
a value below 2^63 decodes to that value with its exact byte length. -/
theorem C3_amended :
    (∀ (data : Bytes) (offset : Nat), data.length ≤ offset →
      decodeVarint data offset = .error .malformedVarint) ∧
    (∀ bs rest : Bytes, bs.length = 10 → (∀ b ∈ bs, 128 ≤ b) →
      decodeVarint (bs ++ rest) 0 = .error .malformedVarint) ∧
    (∀ bs : Bytes, bs ≠ [] → bs.length ≤ 9 → (∀ b ∈ bs, 128 ≤ b) →
      decodeVarint bs 0 = .ok (accumLE bs, bs.length)) ∧
    (∀ (n : Nat) (rest : Bytes), n < 2 ^ 63 →
      decodeVarint (encodeVarint n ++ rest) 0 = .ok (n, (encodeVarint n).length)) := by
  refine ⟨?_, ?_, ?_, ?_⟩
  · intro data offset hoff
    unfold decodeVarint
    rw [if_pos (by omega)]
  · intro bs rest hlen hcont
    unfold decodeVarint
    rw [if_neg (by simp only [List.length_append]; omega)]
    rw [List.drop_zero]
    apply decodeVarintLoop_allCont_fail bs rest 0 0 0 (by
      intro hnil
      rw [hnil] at hlen
      simp at hlen) hcont
    omega
  · intro bs hne hlen hcont
    unfold decodeVarint
    have hpos : 1 ≤ bs.length := by
      cases bs with
      | nil => exact absurd rfl hne
      | cons a t => simp
    rw [if_neg (by omega), List.drop_zero]
    have h := decodeVarintLoop_allCont_ok bs 0 0 0 hcont (by omega)
    simpa using h
  · intro n rest hn
    exact decodeVarint_encodeVarint n rest hn

theorem C3_witness :
    decodeVarint [] 0 = .error .malformedVarint ∧
    decodeVarint (List.replicate 10 128 ++ [1]) 0 = .error .malformedVarint ∧
    decodeVarint [128, 128] 0 = .ok (accumLE [128, 128], 2) ∧
    decodeVarint (encodeVarint 300 ++ [7]) 0 = .ok (300, (encodeVarint 300).length) :=
  ⟨C3_amended.1 [] 0 (by decide),
   C3_amended.2.1 (List.replicate 10 128) [1] (by decide) (by decide),
   C3_amended.2.2.1 [128, 128] (by decide) (by decide) (by decide),
   C3_amended.2.2.2 300 [7] (by decide)⟩

/-- C6: version conversion round trip.  CIDv0.to_v1 followed by CIDv1.to_v0
restores the original value for every multihash, and to_v0 fails with the
codec-version mismatch error for every codec other than dag-pb. -/
theorem C6_version_conversion (h : Bytes) (codec : String) :
    (CIDv0 h).to_v1.to_v0 = .ok (CIDv0 h) ∧
    (codec ≠ "dag-pb" → (CIDv1 codec h).to_v0 = .error .codecVersionMismatch) := by
  constructor
  · simp [CIDv0, CID.to_v1, CIDv1, CID.to_v0]
  · intro hc
    simp [CIDv1, CID.to_v0, CIDv0, hc]

theorem C6_witness :
    (CIDv0 [18, 32]).to_v1.to_v0 = .ok (CIDv0 [18, 32]) ∧
    (CIDv1 "raw" [18, 32]).to_v0 = .error .codecVersionMismatch :=
  ⟨(C6_version_conversion [18, 32] "raw").1,
   (C6_version_conversion [18, 32] "raw").2 (by decide)⟩

/-- C8: CIDv0.encode returns the bare base58 text of the raw multihash for
every value of the encoding argument (the argument is ignored and no multibase
prefix character is added); CIDv1.encode multibase-encodes the buffer with the
requested encoding, and with the default argument uses base58btc, producing
the z-prefixed base58 text of the buffer. -/
theorem C8_encode (h : Bytes) (enc enc2 codec : String) :
    ((CIDv0 h).encodeWith enc = .ok (b58encode h) ∧
     (CIDv0 h).encodeWith enc = (CIDv0 h).encodeWith enc2 ∧
     (CIDv0 h).encode = .ok (b58encode h)) ∧
    (∀ buf, (CIDv1 codec h).buffer = .ok buf →
      (CIDv1 codec h).encodeWith enc = multibaseEncode enc buf ∧
      (CIDv1 codec h).encode = .ok (122 :: b58encode buf)) := by
  refine ⟨⟨rfl, rfl, rfl⟩, ?_⟩
  intro buf hbuf
  constructor
  · unfold CID.encodeWith
    rw [if_neg (by simp [CIDv1])]
    simp only [hbuf, bind, Except.bind]
  · unfold CID.encode CID.encodeWith
    rw [if_neg (by simp [CIDv1])]
    simp only [hbuf, bind, Except.bind]
    unfold multibaseEncode
    rw [if_pos rfl]

theorem C8_witness :
    (CIDv1 "dag-pb" [17, 1, 7]).encodeWith "base64" =
      multibaseEncode "base64" [1, 112, 17, 1, 7] ∧
    (CIDv1 "dag-pb" [17, 1, 7]).encode = .ok (122 :: b58encode [1, 112, 17, 1, 7]) :=
  (C8_encode [17, 1, 7] "base64" "base32" "dag-pb").2 [1, 112, 17, 1, 7] rfl

/-- C9: CIDSet.visit returns true and inserts exactly when the CID is absent
(by triple value equality), returns false and leaves the set unchanged exactly
when present; on a fresh set the first visit returns true, and a repeated
visit with an equal CID returns false and leaves the size unchanged. -/
theorem C9_visit (s : CIDSet) (c : CID) :
    (s.contains c = false → s.visit c = (true, c :: s)) ∧
    (s.contains c = true → s.visit c = (false, s)) ∧
    (s.visit c).2.contains c = true ∧
    (s.visit c).2.visit c = (false, (s.visit c).2) ∧
    ((s.visit c).2.visit c).2.size = (s.visit c).2.size ∧
    (CIDSet.visit ([] : CIDSet) c).1 = true := by
  by_cases h : s.contains c
  · have hmem : c ∈ s := by simpa using h
    refine ⟨?_, ?_, ?_, ?_, ?_, ?_⟩ <;> simp [CIDSet.visit, CIDSet.size, h, hmem]
  · have hmem : c ∉ s := by simpa using h
    refine ⟨?_, ?_, ?_, ?_, ?_, ?_⟩ <;> simp [CIDSet.visit, CIDSet.size, h, hmem]

theorem C9_witness :
    CIDSet.visit ([] : CIDSet) (CIDv0 [18, 32]) = (true, [CIDv0 [18, 32]]) :=
  (C9_visit [] (CIDv0 [18, 32])).1 (by decide)

/-- C10: the Prefix constructor validates version, the version-0/dag-pb
coupling and registry membership of the codec, but accepts every string as
mh_type; to_bytes then fails with the unknown-hash-type error for any mh_type
outside the fixed eight-entry table, and sum fails with the
unsupported-hash-algorithm error for any mh_type other than sha2-256 and
sha2-512, whatever hash implementations are supplied. -/
theorem C10_mh_type_validation :
    (∀ (s : String) (l : Int), Prefix.init 1 "raw" s l = .ok ⟨1, "raw", s, l⟩) ∧
    (∀ (v : Nat) (c s : String) (l : Int), v ≠ 0 → v ≠ 1 →
      Prefix.init v c s l = .error .invalidVersion) ∧
    (∀ (c s : String) (l : Int), c ≠ "dag-pb" →
      Prefix.init 0 c s l = .error .codecVersionMismatch) ∧
    (∀ p : Prefix, isCodec p.codec = true →
      mhCodes.find? (fun q => q.1 = p.mhType) = none →
      p.to_bytes = .error .unknownHashType) ∧
    (∀ (sha256 sha512 : Bytes → Bytes) (p : Prefix) (data : Bytes),
      p.mhType ≠ "sha2-256" → p.mhType ≠ "sha2-512" →
      Prefix.sum sha256 sha512 p data = .error .unsupportedHashAlgorithm) := by
  refine ⟨?_, ?_, ?_, ?_, ?_⟩
  · intro s l
    unfold Prefix.init
    rw [if_neg (by simp), if_neg (by simp), if_neg (by decide)]
  · intro v c s l hv0 hv1
    unfold Prefix.init
    rw [if_pos ⟨hv0, hv1⟩]
  · intro c s l hc
    unfold Prefix.init
    rw [if_neg (by simp), if_pos ⟨rfl, hc⟩]
  · intro p hcodec hfind
    obtain ⟨pc, hpc, hname⟩ := exists_mem_of_isCodec p.codec hcodec
    unfold Prefix.to_bytes
    rw [← hname, getPrefix_of_mem pc hpc]
    simp only [bind, Except.bind]
    rw [decodeVarint_enc_exact pc.2 (multicodecTable_codes_lt pc hpc)]
    simp only []
    unfold mhTypeToCode
    rw [hfind]
  · intro sha256 sha512 p data h256 h512
    unfold Prefix.sum
    rw [if_neg h256, if_neg h512]
    rfl

theorem C10_witness :
    Prefix.init 1 "raw" "whirlpool" (-1) = .ok ⟨1, "raw", "whirlpool", -1⟩ ∧
    Prefix.to_bytes ⟨1, "raw", "whirlpool", -1⟩ = .error .unknownHashType ∧
    Prefix.sum (fun _ => []) (fun _ => [])
      ⟨1, "raw", "whirlpool", -1⟩ [] = .error .unsupportedHashAlgorithm :=
  ⟨C10_mh_type_validation.1 "whirlpool" (-1),
   C10_mh_type_validation.2.2.2.1 ⟨1, "raw", "whirlpool", -1⟩ (by decide) (by decide),
   C10_mh_type_validation.2.2.2.2 (fun _ => []) (fun _ => [])
     ⟨1, "raw", "whirlpool", -1⟩ [] (by decide) (by decide)⟩

/-- C5 counterexample: the constructor accepts any mh_type string, so
Prefix(1, "raw", "bogus", -1) is a constructible Prefix value, yet its
to_bytes fails with the unknown-hash-type error, so
Prefix.from_bytes(p.to_bytes()) cannot return p — the claimed round trip does
not hold for every constructible value. -/
theorem C5_counterexample :
    Prefix.init 1 "raw" "bogus" (-1) = .ok ⟨1, "raw", "bogus", -1⟩ ∧
    Prefix.to_bytes ⟨1, "raw", "bogus", -1⟩ = .error .unknownHashType := by
  exact ⟨rfl, rfl⟩

/-- C5 amended: the serialization round trip holds for every constructible
Prefix whose mh_type is one of the eight names of the fixed hash-code table
and whose mh_length lies between -1 and 2^63 (the varint decoder's 64-bit
guard caps representable lengths); the default-length sentinel collapses
through 0 on the wire, so both mh_length = -1 and mh_length = 0 read back as
-1, and every other length is restored exactly. -/
theorem C5_amended (p : Prefix)
    (hv : p.version = 0 ∨ p.version = 1)
    (hv0 : p.version = 0 → p.codec = "dag-pb")
    (hcodec : isCodec p.codec = true)
    (hmh : ∃ q ∈ mhCodes, q.1 = p.mhType)
    (hlen : -1 ≤ p.mhLength ∧ p.mhLength < 2 ^ 63) :
    ∃ bs, p.to_bytes = .ok bs ∧
      Prefix.from_bytes bs =
        .ok ⟨p.version, p.codec, p.mhType,
          if p.mhLength = 0 then -1 else p.mhLength⟩ := by
  obtain ⟨pc, hpc, hpcname⟩ := exists_mem_of_isCodec p.codec hcodec
  obtain ⟨q, hq, hqname⟩ := hmh
  have hclt : pc.2 < 2 ^ 63 := multicodecTable_codes_lt pc hpc
  have hqlt : q.2 < 2 ^ 63 := mhCodes_lt q hq
  have hlenNat : (if p.mhLength ≥ 0 then p.mhLength.toNat else 0) < 2 ^ 63 := by
    split
    · rename_i hge
      have := hlen.2
      omega
    · positivity
  refine ⟨p.version :: encodeVarint pc.2 ++ encodeVarint q.2 ++
    encodeVarint (if p.mhLength ≥ 0 then p.mhLength.toNat else 0), ?_, ?_⟩
  · unfold Prefix.to_bytes
    rw [← hpcname, getPrefix_of_mem pc hpc]
    simp only [bind, Except.bind]
    rw [decodeVarint_enc_exact pc.2 hclt]
    simp only []
    unfold mhTypeToCode
    rw [← hqname, mhCodes_find q hq]
    simp only []
    rfl
  · unfold Prefix.from_bytes
    rw [if_neg (by simp)]
    simp only [List.headD_cons]
    rw [if_neg (by rcases hv with h | h <;> simp [h])]
    have hdata1 : p.version :: encodeVarint pc.2 ++ encodeVarint q.2 ++
        encodeVarint (if p.mhLength ≥ 0 then p.mhLength.toNat else 0) =
        [p.version] ++ encodeVarint pc.2 ++
          (encodeVarint q.2 ++
            encodeVarint (if p.mhLength ≥ 0 then p.mhLength.toNat else 0)) := by
      simp
    rw [hdata1, decodeVarint_at_off [p.version] pc.2 _ 1 (by simp) hclt]
    simp only [bind, Except.bind]
    rw [getCodec_enc_exact pc hpc, hpcname]
    simp only []
    have hdata2 : [p.version] ++ encodeVarint pc.2 ++
        (encodeVarint q.2 ++
          encodeVarint (if p.mhLength ≥ 0 then p.mhLength.toNat else 0)) =
        (p.version :: encodeVarint pc.2) ++ encodeVarint q.2 ++
          encodeVarint (if p.mhLength ≥ 0 then p.mhLength.toNat else 0) := by
      simp
    rw [hdata2, decodeVarint_at_off (p.version :: encodeVarint pc.2) q.2 _
      (1 + (encodeVarint pc.2).length) (by simp [Nat.add_comm]) hqlt]
    simp only [bind, Except.bind]
    rw [← hqname, mhCodes_inverse q hq]
    simp only []
    have hdata3 : (p.version :: encodeVarint pc.2) ++ encodeVarint q.2 ++
        encodeVarint (if p.mhLength ≥ 0 then p.mhLength.toNat else 0) =
        ((p.version :: encodeVarint pc.2) ++ encodeVarint q.2) ++
          encodeVarint (if p.mhLength ≥ 0 then p.mhLength.toNat else 0) := by
      simp
    rw [hdata3, decodeVarint_at_end ((p.version :: encodeVarint pc.2) ++ encodeVarint q.2)
      (if p.mhLength ≥ 0 then p.mhLength.toNat else 0)
      (1 + (encodeVarint pc.2).length + (encodeVarint q.2).length)
      (by simp [Nat.add_comm, Nat.add_assoc]; omega) hlenNat]
    simp only [bind, Except.bind]
    rw [hqname]
    have hfinal : ∀ L : Nat, L = (if p.mhLength ≥ 0 then p.mhLength.toNat else 0) →
        (if L = 0 then (-1 : Int) else (L : Int)) =
          (if p.mhLength = 0 then -1 else p.mhLength) := by
      intro L hL
      obtain ⟨hge, _⟩ := hlen
      have hL2 : (p.mhLength ≥ 0 ∧ (L : Int) = p.mhLength) ∨ (p.mhLength < 0 ∧ L = 0) := by
        by_cases hgz : p.mhLength ≥ 0
        · refine Or.inl ⟨hgz, ?_⟩
          rw [hL, if_pos hgz]
          exact Int.toNat_of_nonneg hgz
        · exact Or.inr ⟨by omega, by rw [hL, if_neg hgz]⟩
      rcases hL2 with ⟨hgz, hcast⟩ | ⟨hneg, hzero⟩ <;> split <;> split <;> omega
    rw [hfinal _ rfl]
    exact Prefix.init_ok p.version p.codec p.mhType _ hv hv0 hcodec

theorem C5_witness :
    Prefix.to_bytes ⟨1, "raw", "sha2-256", 32⟩ = .ok [1, 85, 18, 32] ∧
    Prefix.from_bytes [1, 85, 18, 32] = .ok ⟨1, "raw", "sha2-256", 32⟩ := by
  obtain ⟨bs, h1, h2⟩ := C5_amended ⟨1, "raw", "sha2-256", 32⟩ (Or.inr rfl) (by decide)
    (by decide) ⟨("sha2-256", 0x12), by decide, rfl⟩ (by decide)
  have hto : Prefix.to_bytes ⟨1, "raw", "sha2-256", 32⟩ = .ok [1, 85, 18, 32] := by rfl
  refine ⟨hto, ?_⟩
  have hbs : bs = [1, 85, 18, 32] := Except.ok.inj (h1.symm.trans hto)
  rw [← hbs, h2]
  rfl

/-- C4 counterexample: a version-0 stream whose declared digest length is 32
but which supplies only five digest bytes is a short read, yet from_reader
performs no length check on the version-0 digest read; the truncated bytes are
re-parsed and the failure surfaces as an unknown-hash-code error from the
multihash validator rather than as the end-of-input error. -/
theorem C4_counterexample :
    from_reader [0, 18, 32, 170, 170, 170, 170, 170] = .error .unknownHashCode ∧
    Err.unknownHashCode ≠ Err.unexpectedEof := by
  exact ⟨rfl, by decide⟩

/-- C4 amended: every short read in from_reader fails with the end-of-input
error except the version-0 digest read, which is unchecked: a missing version
byte, a truncated two-byte multihash header (both versions), a codec varint
that never terminates, and a version-1 digest read shorter than the declared
length all yield the end-of-input error. -/
theorem C4_amended :
    (from_reader [] = .error .unexpectedEof) ∧
    (∀ rest : Bytes, rest.length < 2 → from_reader (0 :: rest) = .error .unexpectedEof) ∧
    (∀ cont : Bytes, (∀ b ∈ cont, 128 ≤ b) →
      from_reader (1 :: cont) = .error .unexpectedEof) ∧
    (∀ (n : Nat) (tail : Bytes), tail.length < 2 →
      from_reader (1 :: (encodeVarint n ++ tail)) = .error .unexpectedEof) ∧
    (∀ (n c L : Nat) (digest : Bytes), digest.length < L →
      from_reader (1 :: (encodeVarint n ++ c :: L :: digest)) =
        .error .unexpectedEof) := by
  refine ⟨rfl, ?_, ?_, ?_, ?_⟩
  · intro rest hlen
    unfold from_reader
    have hmin : min 2 rest.length < 2 := by omega
    simp [hmin]
  · intro cont hcont
    unfold from_reader
    simp [readVarintBytes_allCont cont hcont]
  · intro n tail hlen
    unfold from_reader
    have hmin : min 2 tail.length < 2 := by omega
    simp [readVarintBytes_enc n tail, hmin]
  · intro n c L digest hlen
    unfold from_reader
    have hdig : min L digest.length < L := by omega
    simp [readVarintBytes_enc n (c :: L :: digest), hdig]

theorem C4_witness :
    from_reader (0 :: [18]) = .error .unexpectedEof ∧
    from_reader (1 :: [128, 129]) = .error .unexpectedEof ∧
    from_reader (1 :: (encodeVarint 112 ++ [18])) = .error .unexpectedEof ∧
    from_reader (1 :: (encodeVarint 112 ++ 18 :: 32 :: [7, 7, 7])) =
      .error .unexpectedEof :=
  ⟨C4_amended.2.1 [18] (by decide),
   C4_amended.2.2.1 [128, 129] (by decide),
   C4_amended.2.2.2.1 112 [18] (by decide),
   C4_amended.2.2.2.2 112 18 32 [7, 7, 7] (by decide)⟩

/-- C7 counterexample: appending extra bytes to a CIDv1 buffer makes the
parse fail inside from_bytes at multihash structural validation — the
trailing-bytes check is never reached, so from_bytes_strict surfaces the
multihash error, not TrailingBytes. -/
theorem C7_counterexample :
    (CIDv1 "dag-pb" [17, 1, 7]).buffer = .ok [1, 112, 17, 1, 7] ∧
    from_bytes_strict ([1, 112, 17, 1, 7] ++ [42]) =
      .error .invalidMultihashStructure ∧
    Err.invalidMultihashStructure ≠ Err.trailingBytes := by
  exact ⟨rfl, rfl, by decide⟩

/-- C7 amended: from_bytes_strict runs the byte parser and then fails with
TrailingBytes exactly when the input is longer than the recomputed canonical
length of the parsed CID (returning the CID otherwise); however, a raw CIDv1
buffer with extra bytes appended never reaches that check: the appended bytes
corrupt the multihash, so the parse itself fails with the multihash structural
error. -/
theorem C7_amended :
    (∀ (data : Bytes) (cid : CID) (el : Nat), from_bytes data = .ok cid →
      expectedLen cid = .ok el →
      (el < data.length → from_bytes_strict data = .error .trailingBytes) ∧
      (data.length ≤ el → from_bytes_strict data = .ok cid)) ∧
    (∀ (codec : String) (mh buf extra : Bytes), isCodec codec = true →
      validMultihash mh = true → extra ≠ [] →
      (CIDv1 codec mh).buffer = .ok buf →
      from_bytes_strict (buf ++ extra) = .error .invalidMultihashStructure) := by
  constructor
  · intro data cid el hfb hel
    constructor
    · intro hgt
      unfold from_bytes_strict
      simp only [hfb, hel, bind, Except.bind]
      rw [if_pos hgt]
    · intro hle
      unfold from_bytes_strict
      simp only [hfb, hel, bind, Except.bind]
      rw [if_neg (by omega)]
      rfl
  · intro codec mh buf extra hcodec hvalid hextra hbuf
    obtain ⟨info, hinfo⟩ := validMultihash_ok mh hvalid
    obtain ⟨pc, hpc, hname⟩ := exists_mem_of_isCodec codec hcodec
    have hbufval : (CIDv1 codec mh).buffer = .ok (1 :: (encodeVarint pc.2 ++ mh)) := by
      unfold CID.buffer addPrefix
      rw [if_neg (by simp [CIDv1])]
      rw [show (CIDv1 codec mh).codec = codec from rfl, ← hname, getPrefix_of_mem pc hpc]
      rfl
    have hbuf2 : buf = 1 :: (encodeVarint pc.2 ++ mh) :=
      Except.ok.inj (hbuf.symm.trans hbufval)
    subst hbuf2
    unfold from_bytes_strict
    have hfb : from_bytes ((1 :: (encodeVarint pc.2 ++ mh)) ++ extra) =
        .error .invalidMultihashStructure := by
      have hassoc : (1 :: (encodeVarint pc.2 ++ mh)) ++ extra =
          1 :: (encodeVarint pc.2 ++ (mh ++ extra)) := by simp
      rw [hassoc]
      unfold from_bytes fromBytesWith
      rw [fromBytesBranch_v1 multibaseIsEncoded _ (by simp [encodeVarint_ne_nil])
        (multibaseIsEncoded_one _)]
      simp only [List.headD_cons, List.tail_cons]
      unfold parseTagged
      rw [getCodec_of_mem pc hpc (mh ++ extra)]
      simp only [bind, Except.bind]
      rw [removePrefix_enc pc.2 (mh ++ extra)]
      simp only []
      rw [mhDecode_append_extra mh extra info hinfo hextra]
    simp only [hfb, bind, Except.bind]

theorem C7_witness :
    from_bytes_strict [1, 112, 17, 1, 7] = .ok (CIDv1 "dag-pb" [17, 1, 7]) ∧
    from_bytes_strict ([1, 112, 17, 1, 7] ++ [42]) =
      .error .invalidMultihashStructure :=
  ⟨(C7_amended.1 [1, 112, 17, 1, 7] (CIDv1 "dag-pb" [17, 1, 7]) 5 rfl rfl).2
      (by decide),
   C7_amended.2 "dag-pb" [17, 1, 7] [1, 112, 17, 1, 7] [42] (by decide) (by decide)
      (by decide) rfl⟩

/-- C2 counterexample: the canonical buffer of a CIDv0 is the raw multihash
itself, and from_bytes cannot accept it: a sha2-256-style multihash is raw
binary, not base58 text, so the base58 fallback branch rejects it — the
claimed from_bytes(cid.buffer) round trip fails for version 0. -/
theorem C2_counterexample :
    (CIDv0 ([18, 32] ++ List.replicate 32 7)).buffer =
      .ok ([18, 32] ++ List.replicate 32 7) ∧
    validMultihash ([18, 32] ++ List.replicate 32 7) = true ∧
    from_bytes ([18, 32] ++ List.replicate 32 7) =
      .error .invalidBase58Multihash := by
  exact ⟨rfl, rfl, rfl⟩

/-- C2 amended: the parse/encode and from_bytes/buffer round trips hold in
full for version 1: for every registered codec and structurally valid
multihash, the canonical buffer parses back to an equal CID and the default
textual encoding (z-prefixed base58btc multibase) parses back to an equal
CID.  For version 0 the textual round trip holds whenever the base58 text is
not itself reported as multibase-encoded by the registry (in particular for
the canonical Qm-shaped sha2-256 texts), while from_bytes applied to the raw
CIDv0 buffer fails (see the counterexample). -/
theorem C2_amended :
    (∀ (p : String × Nat) (mh : Bytes) (info : MHInfo), p ∈ multicodecTable →
      mhDecode mh = .ok info → (∀ x ∈ mh, x < 256) →
      (CIDv1 p.1 mh).buffer = .ok (1 :: (encodeVarint p.2 ++ mh)) ∧
      from_bytes (1 :: (encodeVarint p.2 ++ mh)) = .ok (CIDv1 p.1 mh) ∧
      (CIDv1 p.1 mh).encode =
        .ok (122 :: b58encode (1 :: (encodeVarint p.2 ++ mh))) ∧
      from_bytes (122 :: b58encode (1 :: (encodeVarint p.2 ++ mh))) =
        .ok (CIDv1 p.1 mh)) ∧
    (∀ (mh : Bytes) (info : MHInfo), mhDecode mh = .ok info →
      (∀ x ∈ mh, x < 256) →
      multibaseIsEncoded (b58encode mh) = false →
      (CIDv0 mh).encode = .ok (b58encode mh) ∧
      from_bytes (b58encode mh) = .ok (CIDv0 mh)) := by
  constructor
  · intro p mh info hp hmh hb
    have hbufval : (CIDv1 p.1 mh).buffer = .ok (1 :: (encodeVarint p.2 ++ mh)) := by
      unfold CID.buffer addPrefix
      rw [if_neg (by simp [CIDv1])]
      rw [show (CIDv1 p.1 mh).codec = p.1 from rfl, getPrefix_of_mem p hp]
      rfl
    have hencne : encodeVarint p.2 ≠ [] := encodeVarint_ne_nil p.2
    have hencpos : 1 ≤ (encodeVarint p.2).length := by
      cases h : encodeVarint p.2 with
      | nil => exact absurd h hencne
      | cons a l => simp
    have hmh3 : 3 ≤ mh.length := (mhDecode_inv mh info hmh).1
    have hbuflen : 2 ≤ (1 :: (encodeVarint p.2 ++ mh)).length := by
      simp only [List.length_cons, List.length_append]
      omega
    have hbufbytes : ∀ x ∈ 1 :: (encodeVarint p.2 ++ mh), x < 256 := by
      intro x hx
      rcases List.mem_cons.mp hx with h | h
      · omega
      · rcases List.mem_append.mp h with h2 | h2
        · exact mem_encodeVarint_lt p.2 x h2
        · exact hb x h2
    refine ⟨hbufval, from_bytes_v1_buffer p hp mh info hmh, ?_, ?_⟩
    · unfold CID.encode CID.encodeWith
      rw [if_neg (by simp [CIDv1])]
      simp only [hbufval, bind, Except.bind]
      unfold multibaseEncode
      rw [if_pos rfl]
    · rw [from_bytes_z (1 :: (encodeVarint p.2 ++ mh)) hbuflen hbufbytes]
      simp only [List.headD_cons, List.tail_cons]
      rw [parseTagged_ok 1 p hp mh info hmh]
      exact make_cid_v1 p.1 mh (isCodec_of_mem p hp)
  · intro mh info hmh hb hne
    exact ⟨rfl, from_bytes_b58_text mh info hmh hb hne⟩

theorem C2_witness :
    from_bytes (1 :: (encodeVarint 112 ++ [17, 1, 7])) =
      .ok (CIDv1 "dag-pb" [17, 1, 7]) ∧
    from_bytes (122 :: b58encode (1 :: (encodeVarint 112 ++ [17, 1, 7]))) =
      .ok (CIDv1 "dag-pb" [17, 1, 7]) ∧
    from_bytes (b58encode [17, 1, 7]) = .ok (CIDv0 [17, 1, 7]) := by
  have h1 := C2_amended.1 ("dag-pb", 112) [17, 1, 7] ⟨17, 1, [7]⟩ (by decide) rfl
    (by decide)
  have h2 := C2_amended.2 [17, 1, 7] ⟨17, 1, [7]⟩ rfl (by decide) (by decide)
  exact ⟨h1.2.1, h1.2.2.2, h2.2⟩

end CidSpec
